import Mathlib

/-!
# Verification of the RSA core (`src/rsa/rsa.py`)

Shallow embedding of the arithmetic core of the repository's RSA
implementation: the Fermat primality test, the upward prime search, the
prime-pair generator, the exponent selection loop, the continued-fraction
modular-inverse solver, the block codec, and the cipher.

Python integers become `Nat` (or `Int` where the source can produce a
negative intermediate value), fallible code (`assert`) returns `Option`,
and the source's unbounded `while` loops become fuel-indexed structural
recursions so that every definition is executable by the kernel; the fuel
is always sufficient on the loops' actual domains and lemmas below discharge
it.
-/

namespace RSA

/-- `prime(n)` from the source: the single Fermat test to base 2,
`pow(2, n-1, n) == 1`.  (`2 ^ (n-1) % n` has the same value as Python's
modular `pow`.) -/
def prime (n : ℕ) : Bool := 2 ^ (n - 1) % n == 1

/-- `gen_prime(start)` from the source: `n = start; while not prime(n): n += 1`.
The source loop is unbounded; here the iteration count is limited by an
explicit `fuel` argument, `none` meaning the bound was exhausted. -/
def gen_prime : ℕ → ℕ → Option ℕ
  | 0, _ => none
  | fuel + 1, n => if prime n then some n else gen_prime fuel (n + 1)

/-- `two_large_primes(digits, firstseed, secondseed)` from the source, with the
random draws replaced by the explicitly supplied seeds (the source accepts
seeds for exactly this purpose) and the two `gen_prime` searches bounded by
`fuel`.  The leading `assert digits > 0` is the `none` branch. -/
def two_large_primes (digits firstseed secondseed fuel : ℕ) : Option (ℕ × ℕ) :=
  if digits = 0 then none
  else
    match gen_prime fuel firstseed, gen_prime fuel secondseed with
    | some first, some second =>
      if first = second then
        match gen_prime fuel (first + 1) with
        | some second2 => some (first, second2)
        | none => none
      else some (first, second)
    | _, _ => none

/-- The decrement loop of `encryption_exp(phi_n, seed)` from the source:
`x = seed; while gcd(x, phi_n) != 1 and x > 1: x -= 1; return x`.
(The source draws `seed` randomly when it is not supplied; the seed is an
explicit argument here.  On failure the source merely prints
"Failed encryption exponent" and still returns `x = 1`.) -/
def encryption_exp (phi_n : ℕ) : ℕ → ℕ
  | 0 => 0
  | 1 => 1
  | x + 2 => if Nat.gcd (x + 2) phi_n ≠ 1 then encryption_exp phi_n (x + 1) else x + 2

/-- The Euclidean quotient loop of `gcd_terms`, fuel-indexed: collects
`num // modulus` while `modulus != 0`, stepping to `(modulus, num % modulus)`.
Any `fuel ≥ modulus` is enough, since the modulus strictly decreases. -/
def gcd_termsAux : ℕ → ℕ → ℕ → List ℕ
  | 0, _, _ => []
  | fuel + 1, num, modulus =>
    if modulus = 0 then []
    else (num / modulus) :: gcd_termsAux fuel modulus (num % modulus)

/-- `gcd_terms(e, phi_n)` from the source: the quotient sequence of the
Euclidean algorithm started at `num = phi_n`, `modulus = e`.  `e + 1` units
of fuel always suffice. -/
def gcd_terms (e phi_n : ℕ) : List ℕ := gcd_termsAux (e + 1) phi_n e

/-- The convergent recurrence of `decryption_exp`: starting from the pair of
seeds `running_sum = [0, 1]`, each coefficient `c` appends
`running_sum[i-1] * c + running_sum[i-2]`.  The pair holds the two most
recent entries, i.e. Python's `running_sum[-2:]`. -/
def convergents : ℕ × ℕ → List ℕ → ℕ × ℕ
  | pq, [] => pq
  | (p, q), c :: cs => convergents (q, q * c + p) cs

/-- `decryption_exp(e, phi_n)` from the source: reverse the quotient list,
run the convergent recurrence over `coeffs[1:]`, let `x`/`y` be the larger/
smaller of the last two running sums, and return `x` when
`x*e - y*phi_n > 0`, otherwise `-x + phi_n * (phi_n // x)`.  Both operands of
the floor division are nonnegative, where `Int` and Python division agree. -/
def decryption_exp (e phi_n : ℕ) : ℤ :=
  let coeffs := (gcd_terms e phi_n).reverse
  let factors := convergents (0, 1) (coeffs.drop 1)
  let x := max factors.1 factors.2
  let y := min factors.1 factors.2
  let sanity_check : ℤ := (x : ℤ) * e - (y : ℤ) * phi_n
  if 0 < sanity_check then (x : ℤ)
  else -(x : ℤ) + (phi_n : ℤ) * ((phi_n : ℤ) / (x : ℤ))

/-- `keys(digits)` from the source, parameterised by the two primes `p, q`
that the source draws via `two_large_primes` (random seeds): `n = p*q`,
`phi = (p-1)*(q-1)`, `e = encryption_exp(phi, seed=2**8-1)`,
`d = decryption_exp(e, phi)`, returning `((n, e), (n, d))`. -/
def keys (p q : ℕ) : (ℕ × ℕ) × (ℕ × ℤ) :=
  let n := p * q
  let phi := (p - 1) * (q - 1)
  let e := encryption_exp phi (2 ^ 8 - 1)
  let d := decryption_exp e phi
  ((n, e), (n, d))

/-- `encrypt(message, publickey)` from the source:
`assert message < n` (the `none` branch) then `pow(message, e, n)`. -/
def encrypt (message : ℕ) (publickey : ℕ × ℕ) : Option ℕ :=
  if message < publickey.1 then some (message ^ publickey.2 % publickey.1) else none

/-- `decrypt(encrypted, privatekey)` from the source: `pow(encrypted, d, n)`,
with no size check. -/
def decrypt (encrypted : ℕ) (privatekey : ℕ × ℕ) : ℕ :=
  encrypted ^ privatekey.2 % privatekey.1

/-- The inner packing loop of `padded`: byte `j` of a chunk contributes
`character << (8*j)`, summed over the chunk. -/
def chunkValFrom (j : ℕ) : List ℕ → ℕ
  | [] => 0
  | character :: rest => (character <<< (8 * j)) + chunkValFrom (j + 1) rest

/-- The integer value of one chunk of `padded` (the `j` loop started at 0). -/
def chunkVal (g : List ℕ) : ℕ := chunkValFrom 0 g

/-- The chunking loop of `padded`, fuel-indexed: take `chunk_size` bytes
(fewer at the end), check each is `≤ 255` (the source's `assert`, the `none`
branch), pack them, recurse on the rest.  `fuel ≥ message.length` suffices. -/
def paddedAux : ℕ → List ℕ → ℕ → Option (List ℕ)
  | _, [], _ => some []
  | 0, _ :: _, _ => none
  | fuel + 1, b :: rest, chunk_size =>
    let g := b :: rest.take (chunk_size - 1)
    if g.all (fun character => character ≤ 255) then
      match paddedAux fuel (rest.drop (chunk_size - 1)) chunk_size with
      | some chunks => some (chunkVal g :: chunks)
      | none => none
    else none

/-- `padded(message, chunk_size)` from the source, on byte values instead of
characters.  For `chunk_size = 0` the source's `while` loop never advances
(it diverges on nonempty input); this embedding is only used with
`chunk_size ≥ 1`, where it agrees with the source. -/
def padded (message : List ℕ) (chunk_size : ℕ) : Option (List ℕ) :=
  paddedAux message.length message chunk_size

/-- The inner loop of `unpadded`, fuel-indexed: while `chunk > 255` emit the
low byte `chunk & 0xFF` and shift right by 8; finally emit the remaining
value.  `fuel ≥ chunk` is (far more than) enough. -/
def unChunkAux : ℕ → ℕ → List ℕ
  | 0, chunk => [chunk]
  | fuel + 1, chunk =>
    if 255 < chunk then (chunk &&& 255) :: unChunkAux fuel (chunk >>> 8) else [chunk]

/-- One chunk's byte list, as recovered by `unpadded`. -/
def unChunk (chunk : ℕ) : List ℕ := unChunkAux chunk chunk

/-- `unpadded(chunks)` from the source: concatenate the recovered byte lists
of the chunks in order. -/
def unpadded : List ℕ → List ℕ
  | [] => []
  | chunk :: chunks => unChunk chunk ++ unpadded chunks

/-! ## The convergent invariant of the modular inverse solver -/

/-- The pair of final running sums computed inside `decryption_exp`, as a
function of the Euclidean pair `(a, b) = (phi_n, e)` and the fuel. -/
def convPair (fuel a b : ℕ) : ℕ × ℕ :=
  convergents (0, 1) (((gcd_termsAux fuel a b).reverse).drop 1)

theorem convergents_append (pq : ℕ × ℕ) (l1 l2 : List ℕ) :
    convergents pq (l1 ++ l2) = convergents (convergents pq l1) l2 := by
  induction l1 generalizing pq with
  | nil => rfl
  | cons c cs ih => obtain ⟨p, q⟩ := pq; simp [convergents, ih]

/-- Core invariant of the continued-fraction computation in `decryption_exp`:
for coprime `b < a` the final two running sums `(p, q)` satisfy `p ≤ q`,
`p < b`, `q < a`, `1 ≤ q`, and the Bézout-style identity `q*b - p*a = ±1`. -/
theorem convPair_invariant :
    ∀ b : ℕ, ∀ fuel a : ℕ, b ≤ fuel → 0 < b → b < a → Nat.gcd a b = 1 →
      (convPair fuel a b).1 ≤ (convPair fuel a b).2 ∧
      (convPair fuel a b).1 < b ∧
      (convPair fuel a b).2 < a ∧
      1 ≤ (convPair fuel a b).2 ∧
      (((convPair fuel a b).2 : ℤ) * b - ((convPair fuel a b).1 : ℤ) * a = 1 ∨
        ((convPair fuel a b).2 : ℤ) * b - ((convPair fuel a b).1 : ℤ) * a = -1) := by
  intro b
  induction b using Nat.strong_induction_on with
  | _ b ih =>
    intro fuel a hfuel hb hba hgcd
    obtain ⟨f, rfl⟩ : ∃ f, fuel = f + 1 := ⟨fuel - 1, by omega⟩
    have hb0 : ¬ b = 0 := by omega
    by_cases hr : a % b = 0
    · -- the modulus divides, so coprimality forces b = 1 and the list is [a]
      have hb1 : b = 1 := by
        have : Nat.gcd a b = b := Nat.gcd_eq_right (Nat.dvd_of_mod_eq_zero hr)
        omega
      subst hb1
      have hlist : gcd_termsAux (f + 1) a 1 = [a] := by
        cases f <;> simp [gcd_termsAux, Nat.mod_one]
      simp only [convPair, hlist, List.reverse_cons, List.reverse_nil, List.nil_append,
        List.drop_succ_cons, List.drop_nil, convergents]
      refine ⟨by omega, by omega, by omega, by omega, Or.inl ?_⟩
      push_cast
      ring
    · -- genuine Euclidean step to (b, a % b)
      have hr' : 0 < a % b := Nat.pos_of_ne_zero hr
      have hrb : a % b < b := Nat.mod_lt a hb
      have hgcd' : Nat.gcd b (a % b) = 1 := by
        have hrec := Nat.gcd_rec b a
        rw [Nat.gcd_comm b (a % b), ← hrec, Nat.gcd_comm b a]
        exact hgcd
      have IH := ih (a % b) hrb f b (by omega) hr' hrb hgcd'
      have hstep : gcd_termsAux (f + 1) a b = (a / b) :: gcd_termsAux f b (a % b) := by
        simp [gcd_termsAux, hb0]
      have hne : gcd_termsAux f b (a % b) ≠ [] := by
        obtain ⟨f2, rfl⟩ : ∃ f2, f = f2 + 1 := ⟨f - 1, by omega⟩
        simp [gcd_termsAux, hr]
      obtain ⟨c, t, hct⟩ : ∃ c t, (gcd_termsAux f b (a % b)).reverse = c :: t := by
        cases h : (gcd_termsAux f b (a % b)).reverse with
        | nil => rw [List.reverse_eq_nil_iff] at h; exact absurd h hne
        | cons c t => exact ⟨c, t, rfl⟩
      have hdropt : ((gcd_termsAux f b (a % b)).reverse).drop 1 = t := by
        rw [hct]; rfl
      have hconv : convPair (f + 1) a b =
          ((convPair f b (a % b)).2,
            (convPair f b (a % b)).2 * (a / b) + (convPair f b (a % b)).1) := by
        rw [convPair, hstep]
        rw [show ((a / b) :: gcd_termsAux f b (a % b)).reverse
              = ((gcd_termsAux f b (a % b)).reverse) ++ [a / b] from by
            simp [List.reverse_cons]]
        rw [hct, List.cons_append, List.drop_succ_cons, List.drop_zero,
          convergents_append]
        rw [convPair, hdropt]
        obtain ⟨p, q⟩ := convergents (0, 1) t
        rfl
      obtain ⟨ih1, ih2, ih3, ih4, ih5⟩ := IH
      set P := convPair f b (a % b)
      rw [hconv]
      have hq0 : 1 ≤ a / b := (Nat.one_le_div_iff hb).mpr (le_of_lt hba)
      have hdm : b * (a / b) + a % b = a := Nat.div_add_mod a b
      have hle : P.2 ≤ P.2 * (a / b) + P.1 := by
        calc P.2 = P.2 * 1 := (Nat.mul_one _).symm
          _ ≤ P.2 * (a / b) := Nat.mul_le_mul_left _ hq0
          _ ≤ P.2 * (a / b) + P.1 := Nat.le_add_right _ _
      have hmul : P.2 * (a / b) + (a / b) ≤ b * (a / b) := by
        have h' := mul_le_mul_right' (show P.2 + 1 ≤ b from ih3) (a / b)
        rw [add_one_mul] at h'
        exact h'
      refine ⟨hle, ih3, by omega, le_trans ih4 hle, ?_⟩
      have hdmz : (b : ℤ) * ((a / b : ℕ) : ℤ) + ((a % b : ℕ) : ℤ) = (a : ℤ) := by
        exact_mod_cast hdm
      rcases ih5 with h5 | h5
      · refine Or.inr ?_
        push_cast at h5 hdmz ⊢
        linear_combination (-1 : ℤ) * h5 + ((P.2 : ℤ)) * hdmz
      · refine Or.inl ?_
        push_cast at h5 hdmz ⊢
        linear_combination (-1 : ℤ) * h5 + ((P.2 : ℤ)) * hdmz

/-- Shared correctness lemma for the solver: for `1 < e < phi` coprime,
`decryption_exp` returns a positive integer `d` with `(e*d) mod phi = 1`.
(It does NOT always return `d < phi`; see the counterexample for C1.) -/
theorem decryption_exp_inverse (e phi : ℕ) (he : 1 < e) (hlt : e < phi)
    (hg : Nat.gcd e phi = 1) :
    0 < decryption_exp e phi ∧ ((e : ℤ) * decryption_exp e phi) % (phi : ℤ) = 1 := by
  have inv := convPair_invariant e (e + 1) phi (by omega) (by omega) hlt
    (by rw [Nat.gcd_comm]; exact hg)
  obtain ⟨h1, h2, h3, h4, h5⟩ := inv
  set P := convPair (e + 1) phi e with hP
  have hphi1 : (1 : ℤ) < (phi : ℤ) := by exact_mod_cast lt_trans he hlt
  have hfold : convergents (0, 1) (((gcd_terms e phi).reverse).drop 1) = P := rfl
  have hmax : max (convergents (0, 1) (((gcd_terms e phi).reverse).drop 1)).1
      (convergents (0, 1) (((gcd_terms e phi).reverse).drop 1)).2 = P.2 := by
    rw [hfold]; exact max_eq_right h1
  have hmin : min (convergents (0, 1) (((gcd_terms e phi).reverse).drop 1)).1
      (convergents (0, 1) (((gcd_terms e phi).reverse).drop 1)).2 = P.1 := by
    rw [hfold]; exact min_eq_left h1
  rcases h5 with hdet | hdet
  · have hbranch : decryption_exp e phi = (P.2 : ℤ) := by
      simp only [decryption_exp, hmax, hmin]
      rw [if_pos (by rw [hdet]; norm_num)]
    rw [hbranch]
    constructor
    · exact_mod_cast h4
    · have hrw : (e : ℤ) * (P.2 : ℤ) = 1 + (phi : ℤ) * (P.1 : ℤ) := by
        linear_combination hdet
      rw [hrw, Int.add_mul_emod_self_left]
      exact Int.emod_eq_of_lt (by norm_num) hphi1
  · have hbranch : decryption_exp e phi
        = -(P.2 : ℤ) + (phi : ℤ) * ((phi : ℤ) / (P.2 : ℤ)) := by
      simp only [decryption_exp, hmax, hmin]
      rw [if_neg (by rw [hdet]; norm_num)]
    have hdiv : ((phi / P.2 : ℕ) : ℤ) = (phi : ℤ) / (P.2 : ℤ) :=
      Int.natCast_div phi P.2
    have hdiv1 : 1 ≤ phi / P.2 := (Nat.one_le_div_iff (by omega)).mpr (le_of_lt h3)
    have hqlt : (P.2 : ℤ) < (phi : ℤ) * ((phi : ℤ) / (P.2 : ℤ)) := by
      rw [← hdiv]
      calc (P.2 : ℤ) < (phi : ℤ) := by exact_mod_cast h3
        _ ≤ (phi : ℤ) * ((phi / P.2 : ℕ) : ℤ) := by
            exact le_mul_of_one_le_right (by positivity) (by exact_mod_cast hdiv1)
    rw [hbranch]
    constructor
    · omega
    · have key : (e : ℤ) * (-(P.2 : ℤ) + (phi : ℤ) * ((phi : ℤ) / (P.2 : ℤ)))
          = 1 + (phi : ℤ) * ((e : ℤ) * ((phi : ℤ) / (P.2 : ℤ)) - (P.1 : ℤ)) := by
        linear_combination (-1 : ℤ) * hdet
      rw [key, Int.add_mul_emod_self_left]
      exact Int.emod_eq_of_lt (by norm_num) hphi1

/-- The solver on `e = 1`: the quotient list is `[phi]`, the convergent pair
is `(0, 1)`, the sanity check is `1 > 0`, and the result is `1`. -/
theorem decryption_exp_one (phi : ℕ) : decryption_exp 1 phi = 1 := by
  have hlist : gcd_terms 1 phi = [phi] := by
    simp [gcd_terms, gcd_termsAux, Nat.mod_one, Nat.div_one]
  simp [decryption_exp, hlist, convergents]

/-- The exponent-selection loop always lands on a value in `[1, seed]` that
is coprime to `phi_n` (possibly the degenerate `1`), for any seed `≥ 1`. -/
theorem encryption_exp_spec (phi_n : ℕ) :
    ∀ s, 1 ≤ s → 1 ≤ encryption_exp phi_n s ∧ encryption_exp phi_n s ≤ s ∧
      Nat.gcd (encryption_exp phi_n s) phi_n = 1 := by
  intro s
  induction s using Nat.strong_induction_on with
  | _ s ih =>
    intro hs
    match s, hs with
    | 1, _ => simp [encryption_exp, Nat.gcd_one_left]
    | (x + 2), _ =>
      rw [encryption_exp]
      by_cases h : Nat.gcd (x + 2) phi_n ≠ 1
      · rw [if_pos h]
        have h' := ih (x + 1) (by omega) (by omega)
        exact ⟨h'.1, by omega, h'.2.2⟩
      · rw [if_neg h]
        exact ⟨by omega, le_refl _, not_not.mp h⟩

/-! ## Block codec lemmas -/

theorem chunkValFrom_succ (g : List ℕ) :
    ∀ j, chunkValFrom (j + 1) g = 256 * chunkValFrom j g := by
  induction g with
  | nil => intro j; rfl
  | cons c rest ih =>
    intro j
    simp only [chunkValFrom, ih (j + 1), Nat.shiftLeft_eq]
    have : 8 * (j + 1) = 8 * j + 8 := by ring
    rw [this, pow_add]
    ring

theorem chunkVal_nil : chunkVal [] = 0 := rfl

theorem chunkVal_cons (b : ℕ) (g : List ℕ) :
    chunkVal (b :: g) = b + 256 * chunkVal g := by
  show chunkValFrom 0 (b :: g) = b + 256 * chunkValFrom 0 g
  simp [chunkValFrom, chunkValFrom_succ, Nat.shiftLeft_eq]

/-- Packed chunks are bounded by `256 ^ length`. -/
theorem chunkVal_lt (g : List ℕ) (h : ∀ c ∈ g, c ≤ 255) :
    chunkVal g < 256 ^ g.length := by
  induction g with
  | nil => simp [chunkVal_nil]
  | cons b rest ih =>
    have hb : b ≤ 255 := h b (by simp)
    have hv := ih (fun c hc => h c (by simp [hc]))
    rw [chunkVal_cons, List.length_cons, pow_succ]
    have : 256 * chunkVal rest + 256 ≤ 256 ^ rest.length * 256 := by
      calc 256 * chunkVal rest + 256 = 256 * (chunkVal rest + 1) := by ring
        _ ≤ 256 * 256 ^ rest.length := by
            exact Nat.mul_le_mul_left 256 hv
        _ = 256 ^ rest.length * 256 := Nat.mul_comm _ _
    omega

/-- A chunk of nonzero bytes packs to a nonzero value. -/
theorem one_le_chunkVal (b : ℕ) (g : List ℕ) (hb : 1 ≤ b) :
    1 ≤ chunkVal (b :: g) := by
  rw [chunkVal_cons]; omega

/-- A chunk of nonzero bytes is no longer than its packed value plus one
(so `chunkVal g` units of fuel suffice in `unChunk`). -/
theorem length_le_chunkVal (g : List ℕ) (h : ∀ c ∈ g, 1 ≤ c) :
    g.length ≤ chunkVal g + 1 := by
  induction g with
  | nil => simp
  | cons b rest ih =>
    have hb : 1 ≤ b := h b (by simp)
    have hv := ih (fun c hc => h c (by simp [hc]))
    rw [chunkVal_cons, List.length_cons]
    omega

/-- Unpacking inverts packing on chunks whose bytes are all in `[1, 255]`.
(A zero final byte would be lost: the unpack loop stops at the highest
nonzero byte.) -/
theorem unChunkAux_chunkVal :
    ∀ (g : List ℕ) (fuel : ℕ), g ≠ [] → (∀ c ∈ g, c ≤ 255) → (∀ c ∈ g, 1 ≤ c) →
      g.length ≤ fuel + 1 → unChunkAux fuel (chunkVal g) = g := by
  intro g
  induction g with
  | nil => intro fuel h; exact absurd rfl h
  | cons b rest ih =>
    intro fuel _ h255 h1 hfuel
    have hb255 : b ≤ 255 := h255 b (by simp)
    cases rest with
    | nil =>
      have hval : chunkVal [b] = b := by rw [chunkVal_cons, chunkVal_nil]; omega
      cases fuel with
      | zero => rw [hval]; rfl
      | succ f =>
        rw [hval]
        simp [unChunkAux, Nat.not_lt.mpr hb255]
    | cons c rest2 =>
      have hc1 : 1 ≤ c := h1 c (by simp)
      have hv1 : 1 ≤ chunkVal (c :: rest2) := one_le_chunkVal c rest2 hc1
      obtain ⟨f, rfl⟩ : ∃ f, fuel = f + 1 := by
        refine ⟨fuel - 1, ?_⟩
        have := hfuel
        simp only [List.length_cons] at this
        omega
      rw [chunkVal_cons]
      have hgt : 255 < b + 256 * chunkVal (c :: rest2) := by omega
      rw [unChunkAux, if_pos hgt]
      have hand : (b + 256 * chunkVal (c :: rest2)) &&& 255 = b := by
        have h255' := Nat.and_pow_two_sub_one_eq_mod (b + 256 * chunkVal (c :: rest2)) 8
        norm_num at h255'
        rw [h255']
        omega
      have hshift : (b + 256 * chunkVal (c :: rest2)) >>> 8 = chunkVal (c :: rest2) := by
        rw [Nat.shiftRight_eq_div_pow]
        norm_num
        omega
      rw [hand, hshift]
      have hrec := ih f (by simp) (fun x hx => h255 x (by simp [hx]))
        (fun x hx => h1 x (by simp [hx]))
        (by simpa using Nat.succ_le_succ_iff.mp (by simpa using hfuel))
      rw [hrec]

/-- `unChunk` inverts `chunkVal` on chunks of bytes in `[1, 255]`. -/
theorem unChunk_chunkVal (g : List ℕ) (hne : g ≠ [])
    (h255 : ∀ c ∈ g, c ≤ 255) (h1 : ∀ c ∈ g, 1 ≤ c) :
    unChunk (chunkVal g) = g := by
  apply unChunkAux_chunkVal g (chunkVal g) hne h255 h1
  exact length_le_chunkVal g h1

/-- The padding/unpadding round trip, fuel-generic: for chunk sizes `≥ 1`
and messages of bytes in `[1, 255]`, `unpadded` recovers the message. -/
theorem paddedAux_unpadded :
    ∀ (fuel : ℕ) (msg : List ℕ) (k : ℕ), msg.length ≤ fuel → 1 ≤ k →
      (∀ b ∈ msg, b ≤ 255) → (∀ b ∈ msg, 1 ≤ b) →
      ∃ cs, paddedAux fuel msg k = some cs ∧ unpadded cs = msg := by
  intro fuel
  induction fuel with
  | zero =>
    intro msg k hlen _ _ _
    have : msg = [] := by
      cases msg with
      | nil => rfl
      | cons b rest => simp at hlen
    subst this
    exact ⟨[], rfl, rfl⟩
  | succ f ih =>
    intro msg k hlen hk h255 h1
    cases msg with
    | nil => exact ⟨[], rfl, rfl⟩
    | cons b rest =>
      have hgsub : ∀ c ∈ b :: rest.take (k - 1), c ∈ b :: rest := by
        intro c hc
        rcases List.mem_cons.mp hc with h | h
        · simp [h]
        · exact List.mem_cons_of_mem b (List.take_subset _ _ h)
      have hall : (b :: rest.take (k - 1)).all (fun character => character ≤ 255) = true := by
        rw [List.all_eq_true]
        intro c hc
        exact decide_eq_true (h255 c (hgsub c hc))
      obtain ⟨cs, hcs, hun⟩ := ih (rest.drop (k - 1)) k
        (by simp only [List.length_cons] at hlen
            have := List.length_drop (k - 1) rest
            omega)
        hk
        (fun x hx => h255 x (List.mem_cons_of_mem b (List.drop_subset _ _ hx)))
        (fun x hx => h1 x (List.mem_cons_of_mem b (List.drop_subset _ _ hx)))
      refine ⟨chunkVal (b :: rest.take (k - 1)) :: cs, ?_, ?_⟩
      · rw [paddedAux]
        simp only [hall, if_true, hcs]
      · show unChunk (chunkVal (b :: rest.take (k - 1))) ++ unpadded cs = b :: rest
        rw [unChunk_chunkVal _ (by simp) (fun c hc => h255 c (hgsub c hc))
          (fun c hc => h1 c (hgsub c hc)), hun]
        simp [List.take_append_drop]

/-- Every block produced by the chunking loop is `< 256 ^ chunk_size`
(the per-byte `assert` bounds each byte, and a chunk has at most
`chunk_size` bytes). -/
theorem paddedAux_lt :
    ∀ (fuel : ℕ) (msg : List ℕ) (k : ℕ) (cs : List ℕ), 1 ≤ k →
      paddedAux fuel msg k = some cs → ∀ c ∈ cs, c < 256 ^ k := by
  intro fuel
  induction fuel with
  | zero =>
    intro msg k cs _ hsome
    cases msg with
    | nil =>
      injection hsome with h
      subst h
      simp
    | cons b rest => exact absurd hsome (by simp [paddedAux])
  | succ f ih =>
    intro msg k cs hk hsome
    cases msg with
    | nil =>
      injection hsome with h
      subst h
      simp
    | cons b rest =>
      rw [paddedAux] at hsome
      by_cases hall : (b :: rest.take (k - 1)).all (fun character => character ≤ 255) = true
      · rw [if_pos hall] at hsome
        cases hrec : paddedAux f (rest.drop (k - 1)) k with
        | none => rw [hrec] at hsome; exact absurd hsome (by simp)
        | some cs' =>
          rw [hrec] at hsome
          obtain rfl : chunkVal (b :: rest.take (k - 1)) :: cs' = cs := by
            simpa using hsome
          intro c hc
          rcases List.mem_cons.mp hc with h | h
          · subst h
            have hbound := chunkVal_lt (b :: rest.take (k - 1))
              (fun x hx => by
                have := List.all_eq_true.mp hall x hx
                exact of_decide_eq_true this)
            have hlen : (b :: rest.take (k - 1)).length ≤ k := by
              simp only [List.length_cons]
              have := List.length_take (k - 1) rest
              omega
            calc chunkVal (b :: rest.take (k - 1))
                < 256 ^ (b :: rest.take (k - 1)).length := hbound
              _ ≤ 256 ^ k := Nat.pow_le_pow_right (by norm_num) hlen
          · exact ih (rest.drop (k - 1)) k cs' hk hrec c h
      · rw [if_neg hall] at hsome
        exact absurd hsome (by simp)

/-! ## Prime search lemmas -/

theorem gen_prime_le : ∀ fuel s v, gen_prime fuel s = some v → s ≤ v := by
  intro fuel
  induction fuel with
  | zero => intro s v h; exact absurd h (by simp [gen_prime])
  | succ f ih =>
    intro s v h
    rw [gen_prime] at h
    by_cases hs : prime s
    · rw [if_pos hs] at h
      injection h with h
      omega
    · rw [if_neg hs] at h
      have := ih (s + 1) v h
      omega

/-! ## Claim theorems -/

/-- C1, counterexample: at `(e, phi) = (3, 7)` — coprime with `1 < e < phi` —
the solver returns `d = 19`, which is not `< phi = 7` (the claimed bound
`0 < d < phi` fails; `19 = 5 + 2*7` is a valid inverse only modulo 7). -/
theorem C1_counterexample :
    1 < 3 ∧ 3 < 7 ∧ Nat.gcd 3 7 = 1 ∧
      decryption_exp 3 7 = 19 ∧ ¬(decryption_exp 3 7 < 7) := by decide

/-- C1 (amended): for every `(e, phi)` with `1 < e < phi` and
`gcd(e, phi) = 1`, `decryption_exp e phi` returns `d` with `0 < d` and
`(e*d) mod phi = 1`.  (The claimed upper bound `d < phi` is dropped: the
sign-normalisation branch returns `-x + phi*(phi//x)`, which can exceed
`phi`.) -/
theorem C1_solver_inverse_amended (e phi : ℕ) (he : 1 < e) (hlt : e < phi)
    (hg : Nat.gcd e phi = 1) :
    0 < decryption_exp e phi ∧ ((e : ℤ) * decryption_exp e phi) % (phi : ℤ) = 1 :=
  decryption_exp_inverse e phi he hlt hg

/-- C1, witness: the amended theorem applied at `(e, phi) = (3, 7)`. -/
theorem C1_witness :
    (1 < 3 ∧ 3 < 7 ∧ Nat.gcd 3 7 = 1) ∧
      (0 < decryption_exp 3 7 ∧ ((3 : ℤ) * decryption_exp 3 7) % (7 : ℤ) = 1) :=
  ⟨⟨by decide, by decide, by decide⟩,
    C1_solver_inverse_amended 3 7 (by decide) (by decide) (by decide)⟩

/-- C2, counterexample: the byte sequence `[65, 0]` with chunk size 2 packs
to the single block `65`; unpadding stops at the highest nonzero byte and
returns `[65]`, losing the trailing zero byte — the round trip fails. -/
theorem C2_counterexample :
    (∀ b ∈ [65, 0], b ≤ 255) ∧ 1 ≤ 2 ∧
      (padded [65, 0] 2).map unpadded = some [65] ∧ [65] ≠ ([65, 0] : List ℕ) := by
  decide

/-- C2 (amended): decoding inverts encoding, `unpadded (padded m k) = m`,
for every chunk size `k ≥ 1` and every byte sequence `m` whose bytes lie in
`[1, 255]` (bytes equal to 0 can be dropped by the decoder, which stops at
the highest nonzero byte of each chunk). -/
theorem C2_round_trip_amended (m : List ℕ) (k : ℕ) (hk : 1 ≤ k)
    (h255 : ∀ b ∈ m, b ≤ 255) (h1 : ∀ b ∈ m, 1 ≤ b) :
    (padded m k).map unpadded = some m := by
  obtain ⟨cs, hcs, hun⟩ := paddedAux_unpadded m.length m k (le_refl _) hk h255 h1
  rw [padded, hcs]
  simp [hun]

/-- C2, witness: the amended round trip applied to `[72, 105]` ("Hi") with
chunk size 3. -/
theorem C2_witness :
    (1 ≤ 3 ∧ (∀ b ∈ [72, 105], b ≤ 255) ∧ (∀ b ∈ [72, 105], 1 ≤ b)) ∧
      (padded [72, 105] 3).map unpadded = some [72, 105] :=
  ⟨⟨by decide, by decide, by decide⟩,
    C2_round_trip_amended [72, 105] 3 (by decide) (by decide) (by decide)⟩

/-- C3, counterexample: the generator can draw the distinct primes
`p = 3, q = 5` (e.g. `keys(1)` with random starts 1 and 5).  Then
`phi = 8 < 255`, the hardcoded exponent seed `2^8 - 1` is coprime to 8, so
`e = 255 > phi`, and the solver returns the wrong `d = 32`: for the coprime
block `x = 2 < 15`, `(2^e)^d mod 15 = 1 ≠ 2`. -/
theorem C3_counterexample :
    Nat.Prime 3 ∧ Nat.Prime 5 ∧ (3 : ℕ) ≠ 5 ∧ (2 : ℕ) < 3 * 5 ∧
      Nat.gcd 2 (3 * 5) = 1 ∧
      ((2 ^ (keys 3 5).1.2) ^ ((keys 3 5).2.2).toNat) % (3 * 5) = 1 ∧
      (2 : ℕ) % (3 * 5) = 2 :=
  ⟨by norm_num, by norm_num, by decide, by decide, by decide, by decide, by decide⟩

/-- C3 (amended): for every keypair built by `keys` from two distinct actual
primes `p, q` whose totient `(p-1)*(q-1)` is at least 255 (so the hardcoded
exponent seed `2^8 - 1` lies inside `[1, phi]`), and every block `x < n`
coprime to `n`, the RSA identity `(x^e)^d mod n = x mod n` holds. -/
theorem C3_rsa_identity_amended (p q x : ℕ) (hp : Nat.Prime p) (hq : Nat.Prime q)
    (hpq : p ≠ q) (hphi : 255 ≤ (p - 1) * (q - 1)) (hx : x < p * q)
    (hco : Nat.gcd x (p * q) = 1) :
    ((x ^ (keys p q).1.2) ^ ((keys p q).2.2).toNat) % (p * q) = x % (p * q) := by
  set phi := (p - 1) * (q - 1) with hphidef
  have hp2 : 2 ≤ p := hp.two_le
  have hq2 : 2 ≤ q := hq.two_le
  have hkeyse : (keys p q).1.2 = encryption_exp phi (2 ^ 8 - 1) := rfl
  have hkeysd : (keys p q).2.2 = decryption_exp (encryption_exp phi (2 ^ 8 - 1)) phi := rfl
  rw [hkeyse, hkeysd]
  set e := encryption_exp phi (2 ^ 8 - 1) with hedef
  obtain ⟨he1, he255, hegcd⟩ := encryption_exp_spec phi (2 ^ 8 - 1) (by norm_num)
  rw [← hedef] at he1 he255 hegcd
  have he255' : e ≤ 255 := le_trans he255 (by norm_num)
  have heltphi : e < phi := by
    rcases Nat.lt_or_ge e phi with h | h
    · exact h
    · exfalso
      have heq : e = phi := by omega
      rw [heq, Nat.gcd_self] at hegcd
      omega
  set dn := (decryption_exp e phi).toNat with hdn
  have hmod : (e * dn) % phi = 1 := by
    rcases eq_or_lt_of_le he1 with h1 | h1
    · rw [← h1, decryption_exp_one] at hdn
      rw [hdn, ← h1]
      have : (1 : ℕ) * (1 : ℤ).toNat = 1 := by decide
      rw [this]
      exact Nat.mod_eq_of_lt (by omega)
    · obtain ⟨hpos, hmodZ⟩ := decryption_exp_inverse e phi h1 heltphi hegcd
      have htn : ((dn : ℕ) : ℤ) = decryption_exp e phi := by
        rw [hdn]
        exact Int.toNat_of_nonneg (le_of_lt hpos)
      rw [← htn] at hmodZ
      exact_mod_cast hmodZ
  have hcop : Nat.Coprime p q := (Nat.coprime_primes hp hq).mpr hpq
  have htot : Nat.totient (p * q) = phi := by
    rw [Nat.totient_mul hcop, Nat.totient_prime hp, Nat.totient_prime hq]
  have heuler : x ^ phi ≡ 1 [MOD p * q] := by
    rw [← htot]
    exact Nat.ModEq.pow_totient hco
  have hsplit : phi * ((e * dn) / phi) + 1 = e * dn := by
    have := Nat.div_add_mod (e * dn) phi
    omega
  calc (x ^ e) ^ dn = x ^ (e * dn) := (pow_mul x e dn).symm
    _ = x ^ (phi * ((e * dn) / phi) + 1) := by rw [hsplit]
    _ = (x ^ phi) ^ ((e * dn) / phi) * x := by rw [pow_add, pow_mul, pow_one]
    _ ≡ 1 ^ ((e * dn) / phi) * x [MOD p * q] :=
        Nat.ModEq.mul_right x (Nat.ModEq.pow _ heuler)
    _ = x := by rw [one_pow, one_mul]

/-- C3, witness: the amended identity applied to `p = 17, q = 19`
(`phi = 288 ≥ 255`) and the coprime block `x = 2`. -/
theorem C3_witness :
    (Nat.Prime 17 ∧ Nat.Prime 19 ∧ (17 : ℕ) ≠ 19 ∧ 255 ≤ (17 - 1) * (19 - 1) ∧
        (2 : ℕ) < 17 * 19 ∧ Nat.gcd 2 (17 * 19) = 1) ∧
      ((2 ^ (keys 17 19).1.2) ^ ((keys 17 19).2.2).toNat) % (17 * 19) = 2 % (17 * 19) :=
  ⟨⟨by norm_num, by norm_num, by decide, by decide, by decide, by decide⟩,
    C3_rsa_identity_amended 17 19 2 (by norm_num) (by norm_num) (by decide) (by decide)
      (by decide) (by decide)⟩

/-- C4, counterexample: the oracle rejects 2, since
`pow(2, 1, 2) = 0 ≠ 1` — the claim asserts it returns true for 2. -/
theorem C4_counterexample : prime 2 = false := by decide

set_option maxRecDepth 4000 in
set_option exponentiation.threshold 10000 in
/-- C4 (amended): the primality oracle returns false for 2 (the Fermat test
`2^(n-1) mod n == 1` fails at `n = 2`) and true for the known primes 3, 97
and 7919 and for the base-2 Fermat pseudoprime 341. -/
theorem C4_prime_oracle_amended :
    prime 2 = false ∧ prime 3 = true ∧ prime 97 = true ∧ prime 7919 = true ∧
      prime 341 = true := by decide

/-- C5: at `phi_n = 2` with seed 2, the selection loop decrements to
`x = 1` (seed 2 shares a factor with `phi_n`) — and the function returns the
ordinary value 1 to its caller (after printing a message); no exception of
any kind is raised, so `keys` would embed `e = 1` in the keypair. -/
theorem C5_exponent_failure_returned :
    Nat.gcd 2 2 ≠ 1 ∧ encryption_exp 2 2 = 1 := by decide

/-- C6: for every public key `(n, e)` with `n > 0`, `encrypt` fails (the
source's `AssertionError`) iff `block ≥ n`, and otherwise returns
`block^e mod n`. -/
theorem C6_encrypt_spec (n e block : ℕ) (hn : 0 < n) :
    (encrypt block (n, e) = none ↔ n ≤ block) ∧
      (block < n → encrypt block (n, e) = some (block ^ e % n)) := by
  by_cases hblock : block < n
  · refine ⟨?_, fun _ => by simp [encrypt, hblock]⟩
    simp [encrypt, hblock, Nat.not_le.mpr hblock]
  · refine ⟨?_, fun h => absurd h hblock⟩
    simp [encrypt, hblock, Nat.not_lt.mp hblock]

/-- C6, witness: at `n = 15, e = 3`, the block 20 is rejected and the block
2 encrypts to `2^3 mod 15`. -/
theorem C6_witness :
    0 < 15 ∧ (encrypt 20 (15, 3) = none ↔ 15 ≤ 20) ∧
      (2 < 15 → encrypt 2 (15, 3) = some (2 ^ 3 % 15)) :=
  ⟨by decide, (C6_encrypt_spec 15 3 20 (by decide)).1,
    (C6_encrypt_spec 15 3 2 (by decide)).2⟩

/-- C7: whenever some `v ≥ start` is accepted by the oracle (and the fuel
covers the gap), `gen_prime` returns a value `w` accepted by the oracle with
`start ≤ w ≤ v` such that every candidate in `[start, w)` was examined and
rejected — i.e. the first accepted value, skipping none. -/
theorem C7_gen_prime_first :
    ∀ (fuel start v : ℕ), start ≤ v → v < start + fuel → prime v = true →
      ∃ w, gen_prime fuel start = some w ∧ start ≤ w ∧ w ≤ v ∧ prime w = true ∧
        ∀ u, start ≤ u → u < w → prime u = false := by
  intro fuel
  induction fuel with
  | zero => intro start v h1 h2 _; omega
  | succ f ih =>
    intro start v h1 h2 hv
    by_cases hs : prime start = true
    · refine ⟨start, by simp [gen_prime, hs], le_refl _, h1, hs, ?_⟩
      intro u hu1 hu2
      omega
    · have hsf : prime start = false := by
        simpa using hs
      have hneq : start ≠ v := by
        intro h
        rw [h, hv] at hsf
        exact absurd hsf (by simp)
      obtain ⟨w, hw, hw1, hw2, hw3, hw4⟩ := ih (start + 1) v (by omega) (by omega) hv
      refine ⟨w, by simp [gen_prime, hsf, hw], by omega, hw2, hw3, ?_⟩
      intro u hu1 hu2
      rcases eq_or_lt_of_le hu1 with h | h
      · rw [← h]
        exact hsf
      · exact hw4 u (by omega) hu2

/-- C7, witness: from `start = 4` the search rejects 4 and returns 5. -/
theorem C7_witness :
    (4 ≤ 5 ∧ 5 < 4 + 3 ∧ prime 5 = true) ∧
      ∃ w, gen_prime 3 4 = some w ∧ 4 ≤ w ∧ w ≤ 5 ∧ prime w = true ∧
        ∀ u, 4 ≤ u → u < w → prime u = false :=
  ⟨⟨by decide, by decide, by decide⟩,
    C7_gen_prime_first 3 4 5 (by decide) (by decide) (by decide)⟩

/-- C8: whenever the prime-pair generator returns `(p, q)` (any positive
digit count, any seeds, any fuel), the two values are distinct: in the
collision branch the second search restarts from `p + 1`, whose result is
`≥ p + 1 > p`. -/
theorem C8_primes_distinct (digits s1 s2 fuel p q : ℕ) (hd : 0 < digits)
    (h : two_large_primes digits s1 s2 fuel = some (p, q)) : p ≠ q := by
  rw [two_large_primes, if_neg (by omega)] at h
  cases h1 : gen_prime fuel s1 with
  | none => simp [h1] at h
  | some first =>
    cases h2 : gen_prime fuel s2 with
    | none => simp [h1, h2] at h
    | some second =>
      simp only [h1, h2] at h
      by_cases heq : first = second
      · rw [if_pos heq] at h
        cases h3 : gen_prime fuel (first + 1) with
        | none => simp [h3] at h
        | some second2 =>
          rw [h3] at h
          injection h with h
          injection h with ha hb
          have hle := gen_prime_le fuel (first + 1) second2 h3
          omega
      · rw [if_neg heq] at h
        injection h with h
        injection h with ha hb
        omega

/-- C8, witness: with digit count 1 and both seeds 3, both searches return 3
and the collision branch re-searches from 4, returning the pair (3, 5). -/
theorem C8_witness :
    0 < 1 ∧ two_large_primes 1 3 3 5 = some (3, 5) ∧ (3 : ℕ) ≠ 5 :=
  ⟨by decide, by decide, C8_primes_distinct 1 3 3 5 3 5 (by decide) (by decide)⟩

/-- C9: `decrypt` is total — for every private key `(n, d)` with `n > 0` and
every `c` (no size check, unlike `encrypt`) it returns `c^d mod n`, which
lies in `[0, n)`. -/
theorem C9_decrypt_total (n d c : ℕ) (hn : 0 < n) :
    decrypt c (n, d) = c ^ d % n ∧ decrypt c (n, d) < n :=
  ⟨rfl, Nat.mod_lt _ hn⟩

/-- C9, witness: `decrypt` accepts the out-of-range input `c = 343 ≥ n = 15`
and returns `343^3 mod 15 < 15`. -/
theorem C9_witness :
    0 < 15 ∧ decrypt 343 (15, 3) = 343 ^ 3 % 15 ∧ decrypt 343 (15, 3) < 15 :=
  ⟨by decide, (C9_decrypt_total 15 3 343 (by decide)).1,
    (C9_decrypt_total 15 3 343 (by decide)).2⟩

/-- C10: every block produced by `padded` from bytes in `[0, 255]` with
chunk size `k ≥ 1` is `< 256^k`, so any modulus `n ≥ 256^k` satisfies the
cipher's `block < n` precondition for all blocks. -/
theorem C10_block_bound (m : List ℕ) (k : ℕ) (cs : List ℕ) (hk : 1 ≤ k)
    (h255 : ∀ b ∈ m, b ≤ 255) (h : padded m k = some cs) :
    ∀ c ∈ cs, c < 256 ^ k :=
  paddedAux_lt m.length m k cs hk h

/-- C10, witness: `padded [65, 66, 67] 2 = [16961, 67]`, both blocks below
`256^2 = 65536`. -/
theorem C10_witness :
    (1 ≤ 2 ∧ (∀ b ∈ [65, 66, 67], b ≤ 255) ∧
        padded [65, 66, 67] 2 = some [16961, 67]) ∧
      ∀ c ∈ [16961, 67], c < 256 ^ 2 :=
  ⟨⟨by decide, by decide, by decide⟩,
    C10_block_bound [65, 66, 67] 2 [16961, 67] (by decide) (by decide) (by decide)⟩

end RSA
